import Mathlib

/-!  A verification development for the local RAG knowledge base
(`scripts/knowledge_base.py` and `scripts/web_ui.py`): a shallow embedding of
its document loading and normalization, chunking, index build, blocking query
and streaming query, with theorems settling the specification's claims.

Python strings are modelled as `List Char`; the external services the code
calls (Chroma, the Ollama LLM, `RecursiveCharacterTextSplitter`'s merge loop,
`ConversationBufferMemory`) are embedded by their documented behaviour at the
exact call sites the code uses, as noted on each definition.  -/

set_option maxHeartbeats 1000000

namespace KB

/-- Text is modelled as a list of characters (Python `str`). -/
abbrev Txt := List Char

/-- Python's whitespace class as used by `\s` and `str.strip()` on the ASCII
range: space, tab, newline, carriage return, vertical tab, form feed. -/
def pyWs (c : Char) : Bool :=
  c = ' ' || c = '\t' || c = '\n' || c = '\r' || c = '\x0b' || c = '\x0c'

/-- `str.strip()`: drop leading and trailing whitespace. -/
def pyStrip (s : Txt) : Txt :=
  ((s.dropWhile pyWs).reverse.dropWhile pyWs).reverse

/-- `re.sub(r'\s+', ' ', s)` (knowledge_base.py line 159) as one left-to-right
pass: `inRun` records whether the previous character belonged to a whitespace
run that has already been replaced by a single space. -/
def collapseWsAux (inRun : Bool) : Txt → Txt
  | [] => []
  | c :: rest =>
    if pyWs c then
      if inRun then collapseWsAux true rest
      else ' ' :: collapseWsAux true rest
    else c :: collapseWsAux false rest

/-- `re.sub(r'\s+', ' ', s)`: every maximal whitespace run becomes one space. -/
def collapseWs (s : Txt) : Txt := collapseWsAux false s

/-- `re.sub(r'<[^>]+>', '', s)` (knowledge_base.py line 158) as a left-to-right
scanner: state `none` is outside any candidate tag; `some buf` is after a `<`,
with `buf` holding (reversed) the characters read since, none of which is `>`.
A `<` immediately followed by `>` matches nothing (the pattern requires at
least one character between them), and a `<` never closed by a `>` is kept
verbatim, exactly as `re.sub` leaves unmatched text. -/
def stripTagsAux : Option Txt → Txt → Txt
  | none, [] => []
  | none, c :: rest =>
    if c = '<' then stripTagsAux (some []) rest else c :: stripTagsAux none rest
  | some buf, [] => '<' :: buf.reverse
  | some buf, c :: rest =>
    if c = '>' then
      if buf = [] then '<' :: '>' :: stripTagsAux none rest
      else stripTagsAux none rest
    else stripTagsAux (some (c :: buf)) rest

/-- `re.sub(r'<[^>]+>', '', s)`: remove every `<...>` markup span. -/
def stripTags (s : Txt) : Txt := stripTagsAux none s

/-- Lines 158–159 of knowledge_base.py: strip HTML tags, collapse whitespace
runs to single spaces, then `strip()`. -/
def cleanContent (s : Txt) : Txt := pyStrip (collapseWs (stripTags s))

/-- One item of an EPUB container: `isDocument` models
`item.get_type() == ebooklib.ITEM_DOCUMENT`, `content` the decoded bytes
`item.get_content().decode('utf-8')`. -/
structure EpubItem where
  isDocument : Bool
  content : Txt
deriving DecidableEq

/-- The `.epub` branch of `_load_document` (knowledge_base.py lines 142–185):
one normalized text per document item whose raw content is nonempty after
`strip()` and whose cleaned content is nonempty; other items are skipped.
The title/author metadata fields do not affect the emitted texts and are not
modelled. -/
def loadEpub (items : List EpubItem) : List Txt :=
  items.foldr
    (fun it acc =>
      if it.isDocument then
        if pyStrip it.content ≠ [] then
          if cleanContent it.content ≠ [] then cleanContent it.content :: acc else acc
        else acc
      else acc)
    []

/-! ## Chunker: `RecursiveCharacterTextSplitter` as configured at
knowledge_base.py lines 248–253 (`keep_separator=True`, so merged chunks are
joined with the empty separator and each separator occurrence stays attached
to the front of the piece that follows it). -/

/-- `_split_text_with_regex(text, sep, keep_separator=True)` for a
one-character separator: the pieces of the text, each separator occurrence
attached to the front of the following piece; empty pieces are dropped. -/
def splitKeepSepAux (sep : Char) : Txt → Txt → List Txt
  | [], acc => if acc = [] then [] else [acc.reverse]
  | c :: rest, acc =>
    if c = sep then
      if acc = [] then splitKeepSepAux sep rest [c]
      else acc.reverse :: splitKeepSepAux sep rest [c]
    else splitKeepSepAux sep rest (c :: acc)

/-- Split keeping the separator attached to the following piece. -/
def splitKeepSep (sep : Char) (text : Txt) : List Txt := splitKeepSepAux sep text []

/-- Total character count of a list of pieces. -/
def sumLen (l : List Txt) : Nat := (l.map List.length).sum

/-- The overlap loop inside `_merge_splits`: after a chunk is emitted, pop
pieces from the front of the current buffer while `total > chunkOverlap`, or
while the next piece (of length `dlen`) would overflow `chunkSize` and the
buffer is nonempty.  The retained tail seeds the next chunk as its overlap.
The join separator is `""`, so the separator length terms are 0. -/
def popOverlap (cOverlap cSize dlen : Nat) : List Txt → Nat → List Txt × Nat
  | [], total => ([], total)
  | s :: rest, total =>
    if total > cOverlap ∨ (total + dlen > cSize ∧ total > 0) then
      popOverlap cOverlap cSize dlen rest (total - s.length)
    else (s :: rest, total)

/-- `_join_docs(docs, "")`: join the pieces and `strip()` the result. -/
def joinDocs (cur : List Txt) : Txt := pyStrip cur.flatten

/-- Append the joined chunk unless it stripped to nothing (in which case
`_join_docs` returns `None` and the chunk is dropped). -/
def pushDoc (docs : List Txt) (cur : List Txt) : List Txt :=
  if joinDocs cur = [] then docs else docs ++ [joinDocs cur]

/-- One iteration of the loop of `_merge_splits` over the next split `d`:
state is (emitted docs, current buffer, total length of the buffer). -/
def mergeStep (cSize cOverlap : Nat) (st : List Txt × List Txt × Nat) (d : Txt) :
    List Txt × List Txt × Nat :=
  let docs := st.1
  let cur := st.2.1
  let total := st.2.2
  if total + d.length > cSize then
    match cur with
    | [] => (docs, [d], total + d.length)
    | _ :: _ =>
      let pt := popOverlap cOverlap cSize d.length cur total
      (pushDoc docs cur, pt.1 ++ [d], pt.2 + d.length)
  else (docs, cur ++ [d], total + d.length)

/-- After the loop of `_merge_splits`: join whatever is left in the buffer as
the last chunk (dropped when it strips to nothing). -/
def finishMerge (st : List Txt × List Txt × Nat) : List Txt :=
  match st.2.1 with
  | [] => st.1
  | _ :: _ => pushDoc st.1 st.2.1

/-- `_merge_splits(splits, separator="")`. -/
def mergeSplits (cSize cOverlap : Nat) (splits : List Txt) : List Txt :=
  finishMerge (splits.foldl (mergeStep cSize cOverlap) ([], [], 0))

/-- A chunk of `_merge_splits` with proof-level bookkeeping: `pieces` are the
splits that formed it (before joining and stripping) and `carried` is the tail
of those pieces retained by the overlap loop to seed the next chunk. -/
structure AnnChunk where
  pieces : List Txt
  carried : List Txt
deriving DecidableEq

/-- The same loop as `mergeStep`, recording each emitted chunk's pieces and
retained overlap instead of the joined text. -/
def mergeStepAnn (cSize cOverlap : Nat) (st : List AnnChunk × List Txt × Nat) (d : Txt) :
    List AnnChunk × List Txt × Nat :=
  let out := st.1
  let cur := st.2.1
  let total := st.2.2
  if total + d.length > cSize then
    match cur with
    | [] => (out, [d], total + d.length)
    | _ :: _ =>
      let pt := popOverlap cOverlap cSize d.length cur total
      (out ++ [⟨cur, pt.1⟩], pt.1 ++ [d], pt.2 + d.length)
  else (out, cur ++ [d], total + d.length)

/-- The final flush of the annotated loop: the leftover buffer becomes the
last chunk, which retains nothing. -/
def finishMergeAnn (st : List AnnChunk × List Txt × Nat) : List AnnChunk :=
  match st.2.1 with
  | [] => st.1
  | _ :: _ => st.1 ++ [⟨st.2.1, []⟩]

/-- `_merge_splits` with bookkeeping. -/
def mergeAnnot (cSize cOverlap : Nat) (splits : List Txt) : List AnnChunk :=
  finishMergeAnn (splits.foldl (mergeStepAnn cSize cOverlap) ([], [], 0))

/-- Erase the bookkeeping: join and strip each chunk's pieces, dropping the
chunks that strip to nothing, recovering `mergeSplits`'s output. -/
def eraseAnn (l : List AnnChunk) : List Txt :=
  (l.map (fun ch => joinDocs ch.pieces)).filter (fun t => !t.isEmpty)

/-- `RecursiveCharacterTextSplitter._split_text(text, [sep])` for a single
separator: pieces shorter than `chunkSize` are gathered into runs and merged;
a piece of length at least `chunkSize` flushes the gathered run and is emitted
as its own oversized chunk (there is no finer separator to recurse on). -/
def splitRuns (cSize cOverlap : Nat) : List Txt → List Txt → List Txt
  | [], good => if good = [] then [] else mergeSplits cSize cOverlap good
  | s :: rest, good =>
    if s.length < cSize then splitRuns cSize cOverlap rest (good ++ [s])
    else
      (if good = [] then [] else mergeSplits cSize cOverlap good) ++
        s :: splitRuns cSize cOverlap rest []

/-- `split_text` of the configured splitter, for a configuration whose
separator list is the single one-character separator `sep`. -/
def splitTextOne (cSize cOverlap : Nat) (sep : Char) (text : Txt) : List Txt :=
  splitRuns cSize cOverlap (splitKeepSep sep text) []

/-- The last `n` characters of a text. -/
def tailTake (n : Nat) (l : Txt) : Txt := l.drop (l.length - n)

/-- Claim C5 as the spec states it, in executable form: every adjacent pair
of chunks overlaps by exactly `cOverlap` characters drawn from the tail of
the earlier chunk (the last `cOverlap` characters of each chunk begin the
next chunk); the first chunk is excepted because it has no predecessor. -/
def exactOverlap (cOverlap : Nat) : List Txt → Bool
  | a :: b :: rest => (tailTake cOverlap a).isPrefixOf b && exactOverlap cOverlap (b :: rest)
  | _ => true

/-! ## Conversation memory, blocking query and streaming query
(`LocalKnowledgeBase.query`, `LocalKnowledgeBase.query_stream`). -/

/-- One message of `ConversationBufferMemory.chat_memory.messages`: `mtype`
models `msg.type` (`"human"` or `"ai"`), `content` models `msg.content`. -/
structure Msg where
  mtype : String
  content : String
deriving DecidableEq

/-- `chat_memory.add_user_message(q)` appends a human message. -/
def humanMsg (q : String) : Msg := ⟨"human", q⟩

/-- `chat_memory.add_ai_message(a)` appends an AI message. -/
def aiMsg (a : String) : Msg := ⟨"ai", a⟩

/-- Line 398: `chat_history[-6:]` — the streaming prompt's visible history is
the last six messages of the buffer (all of them when there are fewer). -/
def promptHistoryStream (msgs : List Msg) : List Msg := msgs.drop (msgs.length - 6)

/-- The blocking path's prompt history: `ConversationalRetrievalChain` is
built over `self.memory`, a `ConversationBufferMemory` (lines 49–53, 323–329),
whose `load_memory_variables` hands the chain the entire message list; the
chain passes it to the prompt's `chat_history` slot untrimmed. -/
def promptHistoryBlocking (msgs : List Msg) : List Msg := msgs

/-- Line 353 / line 464: the elapsed-time trailer appended to answers, with
the formatted seconds `ts` (`f"{generation_time:.2f}"`). -/
def timeInfo (ts : String) : String := "\n\n⏱️ **生成时间**: " ++ ts ++ "秒"

/-- Lines 334 and 377: the user-facing message when no vector store exists. -/
def kbNotBuiltMsg : String := "错误: 知识库未初始化，请先构建知识库"

/-- Lines 370 and 468: `f"查询失败: {str(e)}"`. -/
def queryFailedMsg (e : String) : String := "查询失败: " ++ e

/-- The blocking `query` (lines 331–372).  Its interaction with the world is
abstracted as: `hasStore` — whether `self.vectorstore` is `None`; `res` — the
outcome of the `qa_chain` call, either an exception text or the chain's
`(answer, source_documents)`; `ts` — the formatted elapsed generation time.
It returns the `(text, sources)` pair the function returns. -/
def query (hasStore : Bool) (res : Except String (String × List String))
    (ts : String) : String × List String :=
  if hasStore = false then (kbNotBuiltMsg, [])
  else
    match res with
    | .error e => (queryFailedMsg e, [])
    | .ok (answer, sources) => (answer ++ timeInfo ts, sources)

/-- One item pulled from `self.llm.stream(prompt)`: a text piece, or an
exception raised while pulling (model service failure mid-stream). -/
inductive GenItem
  | piece (s : String)
  | failure
deriving DecidableEq

/-- One `yield` of `query_stream`, together with the conversation memory as
it stands when that yield hands control to the caller: a caller that abandons
the generator after consuming this event leaves the memory at `memAfter`. -/
structure StreamEv where
  out : String
  srcs : List String
  memAfter : List Msg
deriving DecidableEq

/-- The chunk loop of `query_stream` (lines 438–465): each nonempty piece is
appended to `answer_chunks` and yielded with the retrieved `docs`; an
exception is caught by line 467 and yields `(error message, [])`; when the
loop completes, the memory gains the user message and the full joined answer
(lines 459–461) and only then is the time trailer yielded (line 465). -/
def streamLoop (mem : List Msg) (q : String) (docs : List String) (ts err : String) :
    List GenItem → List String → List StreamEv
  | [], acc =>
      [⟨timeInfo ts, docs, mem ++ [humanMsg q, aiMsg (String.join acc)]⟩]
  | .piece s :: rest, acc =>
      if s = "" then streamLoop mem q docs ts err rest acc
      else ⟨s, docs, mem⟩ :: streamLoop mem q docs ts err rest (acc ++ [s])
  | .failure :: _, _ => [⟨queryFailedMsg err, [], mem⟩]

/-- `query_stream` (lines 374–470): with no vector store it yields the
user-facing error and returns (lines 376–378); otherwise it retrieves `docs`,
builds the prompt, and runs the chunk loop over the generator's items. -/
def query_stream (hasStore : Bool) (docs : List String) (mem : List Msg)
    (q ts err : String) (items : List GenItem) : List StreamEv :=
  if hasStore = false then [⟨kbNotBuiltMsg, [], mem⟩]
  else streamLoop mem q docs ts err items []

/-! ## Build pipeline (`_load_document`, `build_knowledge_base`,
`web_ui.build_kb_stream`, `_try_load_existing_knowledge_base`). -/

/-- An input file as the loader sees it: `ext` is
`Path(file_path).suffix.lower()`, and `parsed` the outcome of running the
matching format loader — `none` when the loader raises. -/
structure SrcFile where
  ext : String
  parsed : Option (List String)
deriving DecidableEq

/-- What `_load_document` reports alongside its return value. -/
inductive LoadLog
  | warnUnsupported
  | errLoadFailed
deriving DecidableEq

/-- The dispatch of `_load_document` (lines 129–193). -/
def supportedExts : List String := [".txt", ".pdf", ".docx", ".md", ".epub"]

/-- `_load_document` (lines 129–193): an unsupported extension logs a warning
and returns the empty list (lines 186–188); a loader exception is caught,
logged and the empty list returned (lines 191–193); otherwise the parsed
documents are returned with no diagnostic. -/
def load_document (f : SrcFile) : List String × Option LoadLog :=
  if f.ext ∈ supportedExts then
    match f.parsed with
    | some docs => (docs, none)
    | none => ([], some .errLoadFailed)
  else ([], some .warnUnsupported)

/-- The loading loop of `build_knowledge_base` (lines 236–240): every file is
passed to `_load_document` and whatever it returns is appended; a file that
failed or was unsupported contributes nothing and the loop moves on. -/
def loadAllDocuments (files : List SrcFile) : List String :=
  files.foldl (fun acc f => acc ++ (load_document f).1) []

/-- The persisted state the build and load paths consult:
`persistDirExists` models `os.path.exists(persist_dir)`, `markerExists`
models `os.path.exists(os.path.join(persist_dir, 'chroma.sqlite3'))` (the
identity marker checked at line 69), and `collection` the entries persisted
in the Chroma collection. -/
structure FS where
  persistDirExists : Bool
  markerExists : Bool
  collection : List String
deriving DecidableEq

/-- How a `build_knowledge_base` invocation ends. -/
inductive BuildOutcome
  | loadedExisting
  | noFiles
  | noDocuments
  | built (n : Nat)
deriving DecidableEq

/-- `Chroma.from_documents(documents=splits, persist_directory=...,
collection_name=...)`: opens (or creates) the collection persisted at the
directory and adds the given documents under fresh ids; entries already
persisted are never removed or overwritten, so the collection grows by
exactly the new splits. -/
def chromaFromDocuments (fs : FS) (splits : List String) : FS :=
  { persistDirExists := true, markerExists := true,
    collection := fs.collection ++ splits }

/-- `build_knowledge_base(docs_dir, rebuild)` (lines 195–277), with the
chunker abstracted as `splitter` and the directory scan's result as `files`:
when the persist directory exists and `rebuild` is false it opens the
existing store and returns (lines 209–218); with no files or no loaded
documents it returns early (lines 230–232, 242–244); otherwise it splits the
documents and calls `Chroma.from_documents` (lines 248–270). -/
def build_knowledge_base (splitter : List String → List String) (fs : FS)
    (files : List SrcFile) (rebuild : Bool) : FS × BuildOutcome :=
  if fs.persistDirExists && !rebuild then (fs, .loadedExisting)
  else if files = [] then (fs, .noFiles)
  else
    let documents := loadAllDocuments files
    if documents = [] then (fs, .noDocuments)
    else
      let splits := splitter documents
      (chromaFromDocuments fs splits, .built splits.length)

/-- `web_ui.KnowledgeBaseUI.build_kb_stream` (web_ui.py lines 21–91): loads
every file, splits, and — when `rebuild` is set and the persist directory
exists — removes the whole directory (`shutil.rmtree`, lines 73–76) before
calling `Chroma.from_documents`. -/
def build_kb_stream (splitter : List String → List String) (fs : FS)
    (files : List SrcFile) (rebuild : Bool) : FS :=
  let documents := loadAllDocuments files
  let splits := splitter documents
  let fs1 := if rebuild && fs.persistDirExists then ⟨false, false, []⟩ else fs
  chromaFromDocuments fs1 splits

/-- `_try_load_existing_knowledge_base` (lines 65–87): the startup loader
opens the store only when both the persist directory and the
`chroma.sqlite3` marker file exist. -/
def try_load_existing (fs : FS) : Bool := fs.persistDirExists && fs.markerExists

/-! ## Predicates used to state the claims. -/

/-- The text pieces the chunk loop of `query_stream` both yields and collects
into `answer_chunks`: the nonempty pieces delivered before the first
mid-stream failure (none after a failure, which ends the generator). -/
def yieldedPieces : List GenItem → List String
  | [] => []
  | .piece s :: rest => if s = "" then yieldedPieces rest else s :: yieldedPieces rest
  | .failure :: _ => []

/-- No occurrence of the markup-tag pattern `<[^>]+>` survives in `s`: there
is no decomposition of `s` around a `<`, a nonempty run of non-`>`
characters, and a closing `>`. -/
def TagFree (s : Txt) : Prop :=
  ∀ a m b, s = a ++ '<' :: (m ++ '>' :: b) → m ≠ [] → '>' ∉ m → False

/-- No two consecutive whitespace characters. -/
def noAdjWs (s : Txt) : Prop :=
  List.Chain' (fun a b => ¬(pyWs a = true ∧ pyWs b = true)) s

/-- Every whitespace character is a plain space. -/
def wsIsSpace (s : Txt) : Prop := ∀ c ∈ s, pyWs c = true → c = ' '

/-- The amended overlap contract between adjacent chunks: the earlier chunk's
retained pieces are a tail of its own pieces, begin the next chunk's pieces,
and total at most `cOverlap` characters. -/
def overlapRel (cOverlap : Nat) (e1 e2 : AnnChunk) : Prop :=
  e1.carried <:+ e1.pieces ∧ e1.carried <+: e2.pieces ∧ sumLen e1.carried ≤ cOverlap

/-- The loop invariant of the annotated `_merge_splits` fold: the emitted
chunks already satisfy the overlap contract pairwise, the last emitted
chunk's retained overlap is a tail of its own pieces, begins the current
buffer, and is at most `cOverlap` characters long, and the running `total`
is the character count of the current buffer. -/
def MergeInv (cOverlap : Nat) (st : List AnnChunk × List Txt × Nat) : Prop :=
  List.Chain' (overlapRel cOverlap) st.1
  ∧ (∀ last, st.1.getLast? = some last →
      last.carried <:+ last.pieces ∧ last.carried <+: st.2.1
        ∧ sumLen last.carried ≤ cOverlap)
  ∧ st.2.2 = sumLen st.2.1

/-- The scanner invariant behind tag-freedom: every `<` in the text is
immediately followed by `>` (so the pattern's nonempty middle cannot start)
or has no `>` anywhere after it (so the pattern cannot close). -/
def ITag : Txt → Prop
  | [] => True
  | c :: rest => (c = '<' → rest = [] ∨ rest.head? = some '>' ∨ '>' ∉ rest) ∧ ITag rest

/-! ## Theorems. -/

/-- Claim C1 (the code violates it): `build_knowledge_base` with
`rebuild=True` on a persisted collection holding a stale entry never deletes
the persisted state — `Chroma.from_documents` adds the fresh chunks beside
the stale entry, so after the forced rebuild the collection is
`["stale", "fresh"]`, not `["fresh"]`.  The web-UI build path
(`build_kb_stream`) removes the directory first and ends with exactly the
fresh chunks, matching the claim and showing the discard is the intended
behaviour. -/
theorem rebuild_true_keeps_stale_entries :
    (build_knowledge_base (fun _ => ["fresh"]) ⟨true, true, ["stale"]⟩
        [⟨".txt", some ["doc"]⟩] true).1.collection = ["stale", "fresh"]
    ∧ "stale" ∈ (build_knowledge_base (fun _ => ["fresh"]) ⟨true, true, ["stale"]⟩
        [⟨".txt", some ["doc"]⟩] true).1.collection
    ∧ (build_kb_stream (fun _ => ["fresh"]) ⟨true, true, ["stale"]⟩
        [⟨".txt", some ["doc"]⟩] true).collection = ["fresh"] := by
  decide

/-- Claim C6 counterexample: with the persist directory present but the
`chroma.sqlite3` identity marker absent, `build_knowledge_base` with
`rebuild=False` still short-circuits to a load, although the claim says a
missing marker means "no existing collection" and must trigger a fresh
build; the startup loader, by contrast, refuses to load this state. -/
theorem build_short_circuits_without_marker :
    (build_knowledge_base (fun d => d) ⟨true, false, []⟩
        [⟨".txt", some ["doc"]⟩] false).2 = BuildOutcome.loadedExisting
    ∧ (⟨true, false, []⟩ : FS).markerExists = false
    ∧ try_load_existing ⟨true, false, []⟩ = false := by
  decide

/-- Claim C6 (amended): `build_knowledge_base` with `rebuild=False`
short-circuits exactly when the persist directory exists — the marker file
plays no part in that decision — and a short-circuit leaves the persisted
state untouched (no ingestion); the marker governs only the startup loader
`_try_load_existing_knowledge_base`, which loads exactly when both the
directory and the marker exist. -/
theorem build_short_circuit_iff_dir (splitter : List String → List String)
    (fs : FS) (files : List SrcFile) :
    ((build_knowledge_base splitter fs files false).2 = BuildOutcome.loadedExisting
        ↔ fs.persistDirExists = true)
    ∧ ((build_knowledge_base splitter fs files false).2 = BuildOutcome.loadedExisting
        → (build_knowledge_base splitter fs files false).1 = fs)
    ∧ (try_load_existing fs = true ↔ fs.persistDirExists = true ∧ fs.markerExists = true) := by
  have hload : try_load_existing fs = true
      ↔ fs.persistDirExists = true ∧ fs.markerExists = true := by
    simp [try_load_existing]
  by_cases h : fs.persistDirExists = true
  · exact ⟨by simp [build_knowledge_base, h],
      fun _ => by simp [build_knowledge_base, h], hload⟩
  · have h' : fs.persistDirExists = false := by simpa using h
    have hne : (build_knowledge_base splitter fs files false).2
        ≠ BuildOutcome.loadedExisting := by
      unfold build_knowledge_base
      simp only [h', Bool.false_and, Bool.false_eq_true, if_false]
      split
      · simp
      · split <;> simp
    exact ⟨⟨fun hc => absurd hc hne, fun hd => absurd hd h⟩,
      fun hc => absurd hc hne, hload⟩

/-- Claim C8: with no vector store (`self.vectorstore is None`), the blocking
`query` returns the user-facing "knowledge base not initialized" message with
an empty source list, and `query_stream` yields exactly that message with an
empty source list and leaves the conversation memory untouched; both are
ordinary returns, not exceptions. -/
theorem query_without_index (res : Except String (String × List String))
    (ts err q : String) (docs : List String) (mem : List Msg) (items : List GenItem) :
    query false res ts = (kbNotBuiltMsg, [])
    ∧ query_stream false docs mem q ts err items = [⟨kbNotBuiltMsg, [], mem⟩] := by
  exact ⟨rfl, rfl⟩

/-- Claim C4 counterexample: a successful blocking `query` does not return
the generator's answer with the elapsed time carried separately — it returns
`answer + time_info`, a single string with the time embedded in the text
(the result differs from the answer), and the only other component is the
source list. -/
theorem query_embeds_time_in_text :
    query true (.ok ("你好", ["s1"])) "1.23"
      = ("你好\n\n⏱️ **生成时间**: 1.23秒", ["s1"])
    ∧ (query true (.ok ("你好", ["s1"])) "1.23").1 ≠ "你好" := by
  exact ⟨rfl, by decide⟩

/-- Claim C4 (amended): the successful blocking `query` appends the elapsed
generation time to the answer text as the fixed-format trailer
`"\n\n⏱️ **生成时间**: {t}秒"` — the returned text is the answer followed by
that nonempty trailer (so it never equals the bare answer), and no separate
metadata field carries the time; the sources are returned unchanged. -/
theorem query_time_is_text_trailer (answer ts : String) (sources : List String) :
    query true (.ok (answer, sources)) ts = (answer ++ timeInfo ts, sources)
    ∧ (query true (.ok (answer, sources)) ts).1.length
        = answer.length + (timeInfo ts).length
    ∧ 0 < (timeInfo ts).length
    ∧ (query true (.ok (answer, sources)) ts).1 ≠ answer := by
  have hlen : ∀ a b : String, (a ++ b).length = a.length + b.length :=
    fun a b => String.length_append a b
  have hone : ("秒").length = 1 := rfl
  have htr : 0 < (timeInfo ts).length := by
    simp only [timeInfo, hlen]
    omega
  refine ⟨rfl, hlen _ _, htr, ?_⟩
  intro heq
  have h1 : (query true (.ok (answer, sources)) ts).1 = answer ++ timeInfo ts := rfl
  have h2 := congrArg String.length heq
  rw [h1, hlen] at h2
  omega

/-- Claim C3 counterexample: after four appended turns (eight messages), the
blocking path's prompt-visible history, taken whole from
`ConversationBufferMemory`, holds all eight messages — more than the
six-message cap the streaming path applies — and still contains the oldest
turn's user message, which the streaming slice has already evicted. -/
theorem blocking_history_exceeds_cap :
    (promptHistoryBlocking
        [⟨"human", "q1"⟩, ⟨"ai", "a1"⟩, ⟨"human", "q2"⟩, ⟨"ai", "a2"⟩,
         ⟨"human", "q3"⟩, ⟨"ai", "a3"⟩, ⟨"human", "q4"⟩, ⟨"ai", "a4"⟩]).length = 8
    ∧ ¬ (promptHistoryBlocking
        [⟨"human", "q1"⟩, ⟨"ai", "a1"⟩, ⟨"human", "q2"⟩, ⟨"ai", "a2"⟩,
         ⟨"human", "q3"⟩, ⟨"ai", "a3"⟩, ⟨"human", "q4"⟩, ⟨"ai", "a4"⟩]).length ≤ 6
    ∧ (⟨"human", "q1"⟩ : Msg) ∈ promptHistoryBlocking
        [⟨"human", "q1"⟩, ⟨"ai", "a1"⟩, ⟨"human", "q2"⟩, ⟨"ai", "a2"⟩,
         ⟨"human", "q3"⟩, ⟨"ai", "a3"⟩, ⟨"human", "q4"⟩, ⟨"ai", "a4"⟩]
    ∧ (⟨"human", "q1"⟩ : Msg) ∉ promptHistoryStream
        [⟨"human", "q1"⟩, ⟨"ai", "a1"⟩, ⟨"human", "q2"⟩, ⟨"ai", "a2"⟩,
         ⟨"human", "q3"⟩, ⟨"ai", "a3"⟩, ⟨"human", "q4"⟩, ⟨"ai", "a4"⟩] := by
  refine ⟨rfl, by decide, by decide, by decide⟩

/-- Claim C3 (amended): only the streaming path bounds the prompt-visible
history — its `chat_history[-6:]` slice is a tail of the buffer of length
`min 6 (buffer length)`, so it never exceeds six messages (three turns) and,
once more than three turns have been appended, the oldest messages are the
ones dropped; the blocking path hands the prompt the entire unbounded
buffer. -/
theorem stream_history_capped (msgs : List Msg) :
    (promptHistoryStream msgs).length = min 6 msgs.length
    ∧ promptHistoryStream msgs <:+ msgs
    ∧ (promptHistoryBlocking msgs).length = msgs.length := by
  refine ⟨?_, List.drop_suffix _ _, rfl⟩
  simp only [promptHistoryStream, List.length_drop]
  omega

theorem loadAll_foldl_eq (files : List SrcFile) (acc : List String) :
    files.foldl (fun a f => a ++ (load_document f).1) acc
      = acc ++ (files.map (fun f => (load_document f).1)).flatten := by
  induction files generalizing acc with
  | nil => simp
  | cons f rest ih => simp [List.foldl, ih, List.append_assoc]

/-- Claim C7: a supported file whose loader raises yields the empty document
list with the load-failure log entry; an unsupported extension yields the
empty list with the unsupported-format diagnostic; and the build's loading
loop is the independent concatenation of every file's own result, so one bad
file contributes nothing and never stops the remaining files from being
processed. -/
theorem loader_failure_policy :
    (∀ f : SrcFile,
      (f.ext ∈ supportedExts → f.parsed = none →
          load_document f = ([], some LoadLog.errLoadFailed))
      ∧ (f.ext ∉ supportedExts →
          load_document f = ([], some LoadLog.warnUnsupported)))
    ∧ ∀ files : List SrcFile,
        loadAllDocuments files = (files.map (fun f => (load_document f).1)).flatten := by
  refine ⟨fun f => ⟨fun h1 h2 => ?_, fun h1 => ?_⟩, fun files => ?_⟩
  · simp [load_document, h1, h2]
  · simp [load_document, h1]
  · simpa using loadAll_foldl_eq files []

theorem streamLoop_ne_nil (mem : List Msg) (q : String) (docs : List String)
    (ts err : String) :
    ∀ (items : List GenItem) (acc : List String),
      streamLoop mem q docs ts err items acc ≠ [] := by
  intro items
  induction items with
  | nil => intro acc; simp [streamLoop]
  | cons it rest ih =>
    intro acc
    cases it with
    | failure => simp [streamLoop]
    | piece s =>
      by_cases hs : s = ""
      · simpa [streamLoop, hs] using ih acc
      · simp [streamLoop, hs]

theorem streamLoop_dropLast_mem (mem : List Msg) (q : String) (docs : List String)
    (ts err : String) :
    ∀ (items : List GenItem) (acc : List String),
      ∀ ev ∈ (streamLoop mem q docs ts err items acc).dropLast, ev.memAfter = mem := by
  intro items
  induction items with
  | nil => intro acc ev hev; simp [streamLoop] at hev
  | cons it rest ih =>
    intro acc ev hev
    cases it with
    | failure => simp [streamLoop] at hev
    | piece s =>
      by_cases hs : s = ""
      · exact ih acc ev (by simpa [streamLoop, hs] using hev)
      · have hstep : streamLoop mem q docs ts err (GenItem.piece s :: rest) acc
            = ⟨s, docs, mem⟩ :: streamLoop mem q docs ts err rest (acc ++ [s]) := by
          simp [streamLoop, hs]
        rw [hstep, List.dropLast_cons_of_ne_nil
          (streamLoop_ne_nil mem q docs ts err rest (acc ++ [s]))] at hev
        rcases List.mem_cons.mp hev with hev | hev
        · rw [hev]
        · exact ih (acc ++ [s]) ev hev

theorem streamLoop_failure_mem (mem : List Msg) (q : String) (docs : List String)
    (ts err : String) :
    ∀ (items : List GenItem) (acc : List String), GenItem.failure ∈ items →
      ∀ ev ∈ streamLoop mem q docs ts err items acc, ev.memAfter = mem := by
  intro items
  induction items with
  | nil => intro acc hf; simp at hf
  | cons it rest ih =>
    intro acc hf ev hev
    cases it with
    | failure =>
      simp [streamLoop] at hev
      rw [hev]
    | piece s =>
      have hf' : GenItem.failure ∈ rest := by
        rcases List.mem_cons.mp hf with hc | hc
        · exact absurd hc.symm (by simp)
        · exact hc
      by_cases hs : s = ""
      · exact ih acc hf' ev (by simpa [streamLoop, hs] using hev)
      · have hstep : streamLoop mem q docs ts err (GenItem.piece s :: rest) acc
            = ⟨s, docs, mem⟩ :: streamLoop mem q docs ts err rest (acc ++ [s]) := by
          simp [streamLoop, hs]
        rw [hstep] at hev
        rcases List.mem_cons.mp hev with hev | hev
        · rw [hev]
        · exact ih (acc ++ [s]) hf' ev hev

theorem streamLoop_complete (mem : List Msg) (q : String) (docs : List String)
    (ts err : String) :
    ∀ (items : List GenItem) (acc : List String), GenItem.failure ∉ items →
      streamLoop mem q docs ts err items acc
        = (yieldedPieces items).map (fun s => ⟨s, docs, mem⟩)
            ++ [⟨timeInfo ts, docs,
                mem ++ [humanMsg q, aiMsg (String.join (acc ++ yieldedPieces items))]⟩] := by
  intro items
  induction items with
  | nil => intro acc _; simp [streamLoop, yieldedPieces]
  | cons it rest ih =>
    intro acc hf
    cases it with
    | failure => exact absurd (List.mem_cons_self _ _) hf
    | piece s =>
      have hf' : GenItem.failure ∉ rest := fun hc => hf (List.mem_cons_of_mem _ hc)
      by_cases hs : s = ""
      · simpa [streamLoop, yieldedPieces, hs] using ih acc hf'
      · have := ih (acc ++ [s]) hf'
        simp only [streamLoop, hs, if_neg, yieldedPieces]
        simp [hs, this, List.append_assoc]

theorem map_out_mk (docs : List String) (mem : List Msg) (l : List String) :
    (l.map (fun s => (⟨s, docs, mem⟩ : StreamEv))).map StreamEv.out = l := by
  induction l with
  | nil => rfl
  | cons s rest ih => simp [ih]

/-- Claim C2: over the chunk loop of `query_stream`, every yield except the
final one hands the caller the memory unchanged — so a stream abandoned
before the loop completes, and a stream ended by a mid-stream failure
(whose every yield, including the error yield, carries the old memory),
leave no user or AI message behind; when the loop completes, the memory is
extended exactly once, with the full reconstructed answer (the join of the
yielded increments), and only at the final time-trailer yield. -/
theorem query_stream_memory_discipline (docs : List String) (mem : List Msg)
    (q ts err : String) (items : List GenItem) :
    (∀ ev ∈ (query_stream true docs mem q ts err items).dropLast, ev.memAfter = mem)
    ∧ (GenItem.failure ∈ items →
        ∀ ev ∈ query_stream true docs mem q ts err items, ev.memAfter = mem)
    ∧ (GenItem.failure ∉ items →
        ∃ pre, query_stream true docs mem q ts err items
            = pre ++ [⟨timeInfo ts, docs,
                mem ++ [humanMsg q, aiMsg (String.join (pre.map StreamEv.out))]⟩]
          ∧ ∀ ev ∈ pre, ev.memAfter = mem) := by
  have hq : query_stream true docs mem q ts err items
      = streamLoop mem q docs ts err items [] := rfl
  refine ⟨?_, ?_, ?_⟩
  · rw [hq]
    exact streamLoop_dropLast_mem mem q docs ts err items []
  · intro hf
    rw [hq]
    exact streamLoop_failure_mem mem q docs ts err items [] hf
  · intro hf
    refine ⟨(yieldedPieces items).map (fun s => ⟨s, docs, mem⟩), ?_, ?_⟩
    · rw [hq, streamLoop_complete mem q docs ts err items [] hf, map_out_mk]
      simp
    · intro ev hev
      rcases List.mem_map.mp hev with ⟨s, _, rfl⟩
      rfl

/-- Claim C10: when the generator completes without an exception, the run of
`query_stream` is exactly the yielded text increments followed by one final
time-trailer yield; the AI answer recorded in memory at that final yield is
the in-order join of precisely those earlier increments (the nonempty
generator pieces, in order), and the time trailer itself is yielded to the
caller but is no part of the recorded answer. -/
theorem query_stream_answer_reconstruction (docs : List String) (mem : List Msg)
    (q ts err : String) (pieces : List String) :
    ∃ pre, query_stream true docs mem q ts err (pieces.map GenItem.piece)
        = pre ++ [⟨timeInfo ts, docs,
            mem ++ [humanMsg q, aiMsg (String.join (pre.map StreamEv.out))]⟩]
      ∧ pre.map StreamEv.out = pieces.filter (fun s => s != "") := by
  have hf : GenItem.failure ∉ pieces.map GenItem.piece := by simp
  have hyp : yieldedPieces (pieces.map GenItem.piece)
      = pieces.filter (fun s => s != "") := by
    induction pieces with
    | nil => rfl
    | cons s rest ih =>
      by_cases hs : s = "" <;> simp [yieldedPieces, hs, ih, List.filter_cons]
  refine ⟨(yieldedPieces (pieces.map GenItem.piece)).map (fun s => ⟨s, docs, mem⟩), ?_, ?_⟩
  · have hq : query_stream true docs mem q ts err (pieces.map GenItem.piece)
        = streamLoop mem q docs ts err (pieces.map GenItem.piece) [] := rfl
    rw [hq, streamLoop_complete mem q docs ts err (pieces.map GenItem.piece) [] hf,
      map_out_mk]
    simp
  · rw [map_out_mk, hyp]

theorem sumLen_nil : sumLen [] = 0 := rfl

theorem sumLen_cons (x : Txt) (l : List Txt) : sumLen (x :: l) = x.length + sumLen l := by
  simp [sumLen]

theorem sumLen_append (a b : List Txt) : sumLen (a ++ b) = sumLen a + sumLen b := by
  simp [sumLen]

theorem popOverlap_spec (cOverlap cSize dlen : Nat) :
    ∀ (l : List Txt) (total : Nat), total = sumLen l →
      (popOverlap cOverlap cSize dlen l total).1 <:+ l
      ∧ (popOverlap cOverlap cSize dlen l total).2
          = sumLen (popOverlap cOverlap cSize dlen l total).1
      ∧ (popOverlap cOverlap cSize dlen l total).2 ≤ cOverlap := by
  intro l
  induction l with
  | nil =>
    intro total ht
    rw [sumLen_nil] at ht
    simp [popOverlap, ht, sumLen_nil]
  | cons s rest ih =>
    intro total ht
    rw [sumLen_cons] at ht
    simp only [popOverlap]
    by_cases hc : total > cOverlap ∨ (total + dlen > cSize ∧ total > 0)
    · rw [if_pos hc]
      have hrest : total - s.length = sumLen rest := by omega
      obtain ⟨h1, h2, h3⟩ := ih (total - s.length) hrest
      exact ⟨h1.trans (List.suffix_cons s rest), h2, h3⟩
    · rw [if_neg hc]
      push_neg at hc
      exact ⟨List.suffix_refl _, ht, hc.1⟩

theorem mergeStepAnn_overflow_nil (cSize cOverlap : Nat) (out : List AnnChunk)
    (total : Nat) (d : Txt) (h : total + d.length > cSize) :
    mergeStepAnn cSize cOverlap (out, [], total) d = (out, [d], total + d.length) := by
  simp [mergeStepAnn, h]

theorem mergeStepAnn_overflow_cons (cSize cOverlap : Nat) (out : List AnnChunk)
    (c : Txt) (cs : List Txt) (total : Nat) (d : Txt) (h : total + d.length > cSize) :
    mergeStepAnn cSize cOverlap (out, c :: cs, total) d
      = (out ++ [⟨c :: cs, (popOverlap cOverlap cSize d.length (c :: cs) total).1⟩],
          (popOverlap cOverlap cSize d.length (c :: cs) total).1 ++ [d],
          (popOverlap cOverlap cSize d.length (c :: cs) total).2 + d.length) := by
  simp [mergeStepAnn, h]

theorem mergeStepAnn_fit (cSize cOverlap : Nat) (out : List AnnChunk)
    (cur : List Txt) (total : Nat) (d : Txt) (h : ¬ total + d.length > cSize) :
    mergeStepAnn cSize cOverlap (out, cur, total) d = (out, cur ++ [d], total + d.length) := by
  cases cur <;> simp [mergeStepAnn, h]

theorem mergeStep_overflow_nil (cSize cOverlap : Nat) (docs : List Txt)
    (total : Nat) (d : Txt) (h : total + d.length > cSize) :
    mergeStep cSize cOverlap (docs, [], total) d = (docs, [d], total + d.length) := by
  simp [mergeStep, h]

theorem mergeStep_overflow_cons (cSize cOverlap : Nat) (docs : List Txt)
    (c : Txt) (cs : List Txt) (total : Nat) (d : Txt) (h : total + d.length > cSize) :
    mergeStep cSize cOverlap (docs, c :: cs, total) d
      = (pushDoc docs (c :: cs),
          (popOverlap cOverlap cSize d.length (c :: cs) total).1 ++ [d],
          (popOverlap cOverlap cSize d.length (c :: cs) total).2 + d.length) := by
  simp [mergeStep, h]

theorem mergeStep_fit (cSize cOverlap : Nat) (docs : List Txt)
    (cur : List Txt) (total : Nat) (d : Txt) (h : ¬ total + d.length > cSize) :
    mergeStep cSize cOverlap (docs, cur, total) d = (docs, cur ++ [d], total + d.length) := by
  cases cur <;> simp [mergeStep, h]

theorem mergeStepAnn_inv (cSize cOverlap : Nat) (st : List AnnChunk × List Txt × Nat)
    (d : Txt) (h : MergeInv cOverlap st) :
    MergeInv cOverlap (mergeStepAnn cSize cOverlap st d) := by
  obtain ⟨out, cur, total⟩ := st
  obtain ⟨hchain, hlast, htotal⟩ := h
  replace htotal : total = sumLen cur := htotal
  by_cases hov : total + d.length > cSize
  · cases cur with
    | nil =>
      rw [mergeStepAnn_overflow_nil cSize cOverlap out total d hov]
      rw [sumLen_nil] at htotal
      refine ⟨hchain, fun last hl => ?_, ?_⟩
      · obtain ⟨h1, h2, h3⟩ := hlast last hl
        have hnil : last.carried = [] := List.prefix_nil.mp h2
        exact ⟨h1, hnil ▸ List.nil_prefix, h3⟩
      · show total + d.length = sumLen [d]
        rw [sumLen_cons, sumLen_nil]
        omega
    | cons c cs =>
      rw [mergeStepAnn_overflow_cons cSize cOverlap out c cs total d hov]
      obtain ⟨hp1, hp2, hp3⟩ :=
        popOverlap_spec cOverlap cSize d.length (c :: cs) total htotal
      refine ⟨?_, fun last hl => ?_, ?_⟩
      · rw [List.chain'_append]
        refine ⟨hchain, List.chain'_singleton _, fun x hx y hy => ?_⟩
        simp only [List.head?_cons, Option.mem_def, Option.some.injEq] at hy
        obtain ⟨h1, h2, h3⟩ := hlast x hx
        exact hy ▸ ⟨h1, h2, h3⟩
      · rw [List.getLast?_concat] at hl
        obtain rfl : (⟨c :: cs, (popOverlap cOverlap cSize d.length (c :: cs) total).1⟩
            : AnnChunk) = last := Option.some.inj hl
        exact ⟨hp1, List.prefix_append _ [d], hp2 ▸ hp3⟩
      · show (popOverlap cOverlap cSize d.length (c :: cs) total).2 + d.length
            = sumLen ((popOverlap cOverlap cSize d.length (c :: cs) total).1 ++ [d])
        rw [sumLen_append, sumLen_cons, sumLen_nil, hp2]
        omega
  · rw [mergeStepAnn_fit cSize cOverlap out cur total d hov]
    refine ⟨hchain, fun last hl => ?_, ?_⟩
    · obtain ⟨h1, h2, h3⟩ := hlast last hl
      exact ⟨h1, h2.trans (List.prefix_append cur [d]), h3⟩
    · show total + d.length = sumLen (cur ++ [d])
      rw [sumLen_append, sumLen_cons, sumLen_nil]
      omega

theorem foldl_mergeStepAnn_inv (cSize cOverlap : Nat) :
    ∀ (splits : List Txt) (st : List AnnChunk × List Txt × Nat),
      MergeInv cOverlap st →
      MergeInv cOverlap (splits.foldl (mergeStepAnn cSize cOverlap) st) := by
  intro splits
  induction splits with
  | nil => intro st h; exact h
  | cons d rest ih =>
    intro st h
    exact ih _ (mergeStepAnn_inv cSize cOverlap st d h)

theorem finishMergeAnn_chain (cOverlap : Nat) (st : List AnnChunk × List Txt × Nat)
    (h : MergeInv cOverlap st) :
    List.Chain' (overlapRel cOverlap) (finishMergeAnn st) := by
  obtain ⟨out, cur, total⟩ := st
  obtain ⟨hchain, hlast, -⟩ := h
  cases cur with
  | nil => exact hchain
  | cons c cs =>
    show List.Chain' (overlapRel cOverlap) (out ++ [⟨c :: cs, []⟩])
    rw [List.chain'_append]
    refine ⟨hchain, List.chain'_singleton _, fun x hx y hy => ?_⟩
    simp only [List.head?_cons, Option.mem_def, Option.some.injEq] at hy
    obtain ⟨h1, h2, h3⟩ := hlast x hx
    exact hy ▸ ⟨h1, h2, h3⟩

theorem mergeAnnot_chain (cSize cOverlap : Nat) (splits : List Txt) :
    List.Chain' (overlapRel cOverlap) (mergeAnnot cSize cOverlap splits) := by
  have h0 : MergeInv cOverlap ([], [], 0) := by
    refine ⟨List.chain'_nil, fun last hl => ?_, rfl⟩
    simp at hl
  exact finishMergeAnn_chain cOverlap _
    (foldl_mergeStepAnn_inv cSize cOverlap splits ([], [], 0) h0)

theorem eraseAnn_nil : eraseAnn [] = [] := rfl

theorem eraseAnn_append (a b : List AnnChunk) :
    eraseAnn (a ++ b) = eraseAnn a ++ eraseAnn b := by
  simp [eraseAnn]

theorem eraseAnn_single (cur carried : List Txt) :
    eraseAnn [⟨cur, carried⟩]
      = if joinDocs cur = [] then [] else [joinDocs cur] := by
  by_cases h : joinDocs cur = [] <;> simp [eraseAnn, h]

theorem pushDoc_eq_append_erase (docs : List Txt) (cur carried : List Txt) :
    pushDoc docs cur = docs ++ eraseAnn [⟨cur, carried⟩] := by
  rw [eraseAnn_single]
  by_cases h : joinDocs cur = [] <;> simp [pushDoc, h]

theorem mergeStep_rel (cSize cOverlap : Nat) (out : List AnnChunk) (cur : List Txt)
    (total : Nat) (d : Txt) :
    mergeStep cSize cOverlap (eraseAnn out, cur, total) d
      = (eraseAnn (mergeStepAnn cSize cOverlap (out, cur, total) d).1,
          (mergeStepAnn cSize cOverlap (out, cur, total) d).2) := by
  by_cases hov : total + d.length > cSize
  · cases cur with
    | nil =>
      rw [mergeStep_overflow_nil cSize cOverlap _ total d hov,
        mergeStepAnn_overflow_nil cSize cOverlap out total d hov]
    | cons c cs =>
      rw [mergeStep_overflow_cons cSize cOverlap _ c cs total d hov,
        mergeStepAnn_overflow_cons cSize cOverlap out c cs total d hov]
      rw [pushDoc_eq_append_erase (eraseAnn out) (c :: cs)
        (popOverlap cOverlap cSize d.length (c :: cs) total).1, ← eraseAnn_append]
  · rw [mergeStep_fit cSize cOverlap _ cur total d hov,
      mergeStepAnn_fit cSize cOverlap out cur total d hov]

theorem foldl_merge_rel (cSize cOverlap : Nat) :
    ∀ (splits : List Txt) (out : List AnnChunk) (cur : List Txt) (total : Nat),
      splits.foldl (mergeStep cSize cOverlap) (eraseAnn out, cur, total)
        = (eraseAnn (splits.foldl (mergeStepAnn cSize cOverlap) (out, cur, total)).1,
            (splits.foldl (mergeStepAnn cSize cOverlap) (out, cur, total)).2) := by
  intro splits
  induction splits with
  | nil => intro out cur total; rfl
  | cons d rest ih =>
    intro out cur total
    rw [List.foldl_cons, List.foldl_cons, mergeStep_rel]
    exact ih (mergeStepAnn cSize cOverlap (out, cur, total) d).1
      (mergeStepAnn cSize cOverlap (out, cur, total) d).2.1
      (mergeStepAnn cSize cOverlap (out, cur, total) d).2.2

theorem finishMerge_rel (st : List AnnChunk × List Txt × Nat) :
    finishMerge (eraseAnn st.1, st.2) = eraseAnn (finishMergeAnn st) := by
  obtain ⟨out, cur, total⟩ := st
  cases cur with
  | nil => rfl
  | cons c cs =>
    show pushDoc (eraseAnn out) (c :: cs) = eraseAnn (out ++ [⟨c :: cs, []⟩])
    rw [eraseAnn_append, pushDoc_eq_append_erase (eraseAnn out) (c :: cs) []]

theorem mergeSplits_eq_eraseAnn (cSize cOverlap : Nat) (splits : List Txt) :
    mergeSplits cSize cOverlap splits = eraseAnn (mergeAnnot cSize cOverlap splits) := by
  unfold mergeSplits mergeAnnot
  have h := foldl_merge_rel cSize cOverlap splits [] [] 0
  rw [eraseAnn_nil] at h
  rw [h, finishMerge_rel]


/-- Claim C5 counterexample: with `chunkSize=8`, `chunkOverlap=2` and the
single separator `" "`, the unit `"aaa bbb ccc"` is split into the adjacent
chunks `"aaa bbb"` and `"ccc"`, whose overlap is empty — the last two
characters `"bb"` of the earlier chunk do not begin the later chunk, so the
overlap does not equal the configured `chunkOverlap`. -/
theorem chunk_overlap_not_exact :
    splitTextOne 8 2 ' ' ("aaa bbb ccc").toList
      = [("aaa bbb").toList, ("ccc").toList]
    ∧ exactOverlap 2 (splitTextOne 8 2 ' ' ("aaa bbb ccc").toList) = false := by
  decide

/-- Claim C5 (amended): for every configuration and every list of separator
pieces, adjacent chunks produced by the merge loop overlap by AT MOST
`chunkOverlap` characters — the retained overlap is a tail of the earlier
chunk's pieces, begins the next chunk's pieces, and totals at most
`chunkOverlap` characters, but can fall short of it (down to zero) because
it is made of whole separator-delimited pieces; `mergeSplits` (the emitted
chunk texts, after joining and stripping) is exactly the erasure of this
annotated output. -/
theorem chunk_overlap_at_most (cSize cOverlap : Nat) (splits : List Txt) :
    List.Chain' (overlapRel cOverlap) (mergeAnnot cSize cOverlap splits)
    ∧ mergeSplits cSize cOverlap splits = eraseAnn (mergeAnnot cSize cOverlap splits) :=
  ⟨mergeAnnot_chain cSize cOverlap splits, mergeSplits_eq_eraseAnn cSize cOverlap splits⟩

theorem stripTagsAux_none_nil : stripTagsAux none [] = [] := rfl

theorem stripTagsAux_some_nil (buf : Txt) :
    stripTagsAux (some buf) [] = '<' :: buf.reverse := rfl

theorem stripTagsAux_none_cons (x : Char) (rest : Txt) :
    stripTagsAux none (x :: rest)
      = if x = '<' then stripTagsAux (some []) rest
        else x :: stripTagsAux none rest := rfl

theorem stripTagsAux_some_cons (buf : Txt) (x : Char) (rest : Txt) :
    stripTagsAux (some buf) (x :: rest)
      = if x = '>' then
          (if buf = [] then '<' :: '>' :: stripTagsAux none rest
           else stripTagsAux none rest)
        else stripTagsAux (some (x :: buf)) rest := rfl

theorem ITag_of_no_gt : ∀ s : Txt, '>' ∉ s → ITag s
  | [], _ => trivial
  | _ :: rest, h =>
    ⟨fun _ => Or.inr (Or.inr fun hc => h (List.mem_cons_of_mem _ hc)),
      ITag_of_no_gt rest fun hc => h (List.mem_cons_of_mem _ hc)⟩

theorem mem_stripTagsAux : ∀ (s : Txt) (st : Option Txt) (c : Char),
    c ∈ stripTagsAux st s →
    c ∈ s ∨ ∃ buf, st = some buf ∧ (c ∈ buf ∨ c = '<') := by
  intro s
  induction s with
  | nil =>
    intro st c hc
    cases st with
    | none => exact absurd hc (by simp [stripTagsAux_none_nil])
    | some buf =>
      rw [stripTagsAux_some_nil] at hc
      rcases List.mem_cons.mp hc with rfl | hc
      · exact Or.inr ⟨buf, rfl, Or.inr rfl⟩
      · exact Or.inr ⟨buf, rfl, Or.inl (List.mem_reverse.mp hc)⟩
  | cons x rest ih =>
    intro st c hc
    cases st with
    | none =>
      by_cases hx : x = '<'
      · rw [stripTagsAux_none_cons, if_pos hx] at hc
        rcases ih (some []) c hc with h | ⟨buf, hb, hcc⟩
        · exact Or.inl (List.mem_cons_of_mem _ h)
        · obtain rfl : ([] : Txt) = buf := Option.some.inj hb
          rcases hcc with hcc | rfl
          · exact absurd hcc (List.not_mem_nil c)
          · exact Or.inl (hx ▸ List.mem_cons_self _ _)
      · rw [stripTagsAux_none_cons, if_neg hx] at hc
        rcases List.mem_cons.mp hc with rfl | hc
        · exact Or.inl (List.mem_cons_self _ _)
        · rcases ih none c hc with h | ⟨buf, hb, _⟩
          · exact Or.inl (List.mem_cons_of_mem _ h)
          · cases hb
    | some buf =>
      by_cases hx : x = '>'
      · rw [stripTagsAux_some_cons, if_pos hx] at hc
        by_cases hb : buf = []
        · rw [if_pos hb] at hc
          rcases List.mem_cons.mp hc with rfl | hc
          · exact Or.inr ⟨buf, rfl, Or.inr rfl⟩
          · rcases List.mem_cons.mp hc with rfl | hc
            · exact Or.inl (hx ▸ List.mem_cons_self _ _)
            · rcases ih none c hc with h | ⟨b2, hb2, _⟩
              · exact Or.inl (List.mem_cons_of_mem _ h)
              · cases hb2
        · rw [if_neg hb] at hc
          rcases ih none c hc with h | ⟨b2, hb2, _⟩
          · exact Or.inl (List.mem_cons_of_mem _ h)
          · cases hb2
      · rw [stripTagsAux_some_cons, if_neg hx] at hc
        rcases ih (some (x :: buf)) c hc with h | ⟨b2, hb2, hcc⟩
        · exact Or.inl (List.mem_cons_of_mem _ h)
        · obtain rfl : x :: buf = b2 := Option.some.inj hb2
          rcases hcc with hcc | rfl
          · rcases List.mem_cons.mp hcc with rfl | hcc
            · exact Or.inl (List.mem_cons_self _ _)
            · exact Or.inr ⟨buf, rfl, Or.inl hcc⟩
          · exact Or.inr ⟨buf, rfl, Or.inr rfl⟩

theorem not_gt_stripTagsAux_none {s : Txt} (h : '>' ∉ s) : '>' ∉ stripTagsAux none s := by
  intro hc
  rcases mem_stripTagsAux s none '>' hc with h1 | ⟨buf, hb, _⟩
  · exact h h1
  · cases hb

theorem ITag_stripTagsAux : ∀ (s : Txt) (st : Option Txt),
    (∀ buf, st = some buf → '>' ∉ buf) → ITag (stripTagsAux st s) := by
  intro s
  induction s with
  | nil =>
    intro st hst
    cases st with
    | none => trivial
    | some buf =>
      have hb := hst buf rfl
      rw [stripTagsAux_some_nil]
      have hbr : '>' ∉ buf.reverse := fun hc => hb (List.mem_reverse.mp hc)
      exact ⟨fun _ => Or.inr (Or.inr hbr), ITag_of_no_gt _ hbr⟩
  | cons x rest ih =>
    intro st hst
    cases st with
    | none =>
      by_cases hx : x = '<'
      · rw [stripTagsAux_none_cons, if_pos hx]
        exact ih (some []) fun buf hb => by
          obtain rfl : ([] : Txt) = buf := Option.some.inj hb
          exact List.not_mem_nil _
      · rw [stripTagsAux_none_cons, if_neg hx]
        exact ⟨fun hc => absurd hc hx, ih none (by intro buf hb; cases hb)⟩
    | some buf =>
      have hb := hst buf rfl
      by_cases hx : x = '>'
      · rw [stripTagsAux_some_cons, if_pos hx]
        by_cases hbe : buf = []
        · rw [if_pos hbe]
          exact ⟨fun _ => Or.inr (Or.inl rfl),
            ⟨fun hgt => absurd hgt (by decide), ih none (by intro b2 hb2; cases hb2)⟩⟩
        · rw [if_neg hbe]
          exact ih none (by intro b2 hb2; cases hb2)
      · rw [stripTagsAux_some_cons, if_neg hx]
        exact ih (some (x :: buf)) fun b2 hb2 => by
          obtain rfl : x :: buf = b2 := Option.some.inj hb2
          intro hmem
          rcases List.mem_cons.mp hmem with hg | hg
          · exact hx hg.symm
          · exact hb hg

theorem collapseWsAux_cons (b : Bool) (x : Char) (rest : Txt) :
    collapseWsAux b (x :: rest)
      = if pyWs x then
          (if b then collapseWsAux true rest else ' ' :: collapseWsAux true rest)
        else x :: collapseWsAux false rest := rfl

theorem mem_collapseWsAux : ∀ (s : Txt) (b : Bool) (c : Char),
    c ∈ collapseWsAux b s → c ∈ s ∨ c = ' ' := by
  intro s
  induction s with
  | nil => intro b c hc; exact absurd hc (by simp [collapseWsAux])
  | cons x rest ih =>
    intro b c hc
    rw [collapseWsAux_cons] at hc
    by_cases hx : pyWs x
    · rw [if_pos hx] at hc
      cases b with
      | true =>
        rcases ih true c (by simpa using hc) with h | h
        · exact Or.inl (List.mem_cons_of_mem _ h)
        · exact Or.inr h
      | false =>
        rcases List.mem_cons.mp (by simpa using hc) with rfl | hc2
        · exact Or.inr rfl
        · rcases ih true c hc2 with h | h
          · exact Or.inl (List.mem_cons_of_mem _ h)
          · exact Or.inr h
    · rw [if_neg hx] at hc
      rcases List.mem_cons.mp hc with rfl | hc2
      · exact Or.inl (List.mem_cons_self _ _)
      · rcases ih false c hc2 with h | h
        · exact Or.inl (List.mem_cons_of_mem _ h)
        · exact Or.inr h

theorem collapseWsAux_true_head : ∀ (s : Txt) (c : Char),
    (collapseWsAux true s).head? = some c → pyWs c = false := by
  intro s
  induction s with
  | nil => intro c hc; exact absurd hc (by simp [collapseWsAux])
  | cons x rest ih =>
    intro c hc
    rw [collapseWsAux_cons] at hc
    by_cases hx : pyWs x
    · rw [if_pos hx, if_pos rfl] at hc
      exact ih c hc
    · rw [if_neg hx] at hc
      rw [List.head?_cons] at hc
      obtain rfl : x = c := Option.some.inj hc
      exact Bool.not_eq_true _ ▸ (by simpa using hx)

theorem noAdjWs_collapseWsAux : ∀ (s : Txt) (b : Bool),
    List.Chain' (fun a c => ¬(pyWs a = true ∧ pyWs c = true)) (collapseWsAux b s) := by
  intro s
  induction s with
  | nil => intro b; exact List.chain'_nil
  | cons x rest ih =>
    intro b
    rw [collapseWsAux_cons]
    by_cases hx : pyWs x
    · rw [if_pos hx]
      cases b with
      | true => exact ih true
      | false =>
        rw [if_neg (by simp)]
        rw [List.chain'_cons']
        refine ⟨fun y hy hcon => ?_, ih true⟩
        have := collapseWsAux_true_head rest y hy
        rw [this] at hcon
        exact Bool.false_ne_true hcon.2
    · rw [if_neg hx]
      rw [List.chain'_cons']
      refine ⟨fun y hy hcon => ?_, ih false⟩
      exact hx hcon.1

theorem wsIsSpace_collapseWsAux : ∀ (s : Txt) (b : Bool) (c : Char),
    c ∈ collapseWsAux b s → pyWs c = true → c = ' ' := by
  intro s
  induction s with
  | nil => intro b c hc; exact absurd hc (by simp [collapseWsAux])
  | cons x rest ih =>
    intro b c hc hw
    rw [collapseWsAux_cons] at hc
    by_cases hx : pyWs x
    · rw [if_pos hx] at hc
      cases b with
      | true => exact ih true c (by simpa using hc) hw
      | false =>
        rcases List.mem_cons.mp (by simpa using hc) with rfl | hc2
        · rfl
        · exact ih true c hc2 hw
    · rw [if_neg hx] at hc
      rcases List.mem_cons.mp hc with rfl | hc2
      · exact absurd hw (by simpa using hx)
      · exact ih false c hc2 hw

theorem ITag_collapseWsAux : ∀ (s : Txt) (b : Bool), ITag s → ITag (collapseWsAux b s) := by
  intro s
  induction s with
  | nil => intro b _; exact trivial
  | cons x rest ih =>
    intro b hI
    obtain ⟨hc, hI'⟩ := hI
    rw [collapseWsAux_cons]
    by_cases hx : pyWs x
    · rw [if_pos hx]
      cases b with
      | true => exact ih true hI'
      | false =>
        rw [if_neg (by simp)]
        exact ⟨fun hsp => absurd hsp (by decide), ih true hI'⟩
    · rw [if_neg hx]
      refine ⟨fun hlt => ?_, ih false hI'⟩
      rcases hc hlt with h | h | h
      · subst h
        exact Or.inl rfl
      · cases rest with
        | nil => exact Or.inl rfl
        | cons z r2 =>
          rw [List.head?_cons] at h
          obtain rfl : z = '>' := Option.some.inj h
          rw [collapseWsAux_cons, if_neg (by decide)]
          exact Or.inr (Or.inl (List.head?_cons))
      · refine Or.inr (Or.inr fun hgt => ?_)
        rcases mem_collapseWsAux rest false '>' hgt with h2 | h2
        · exact h h2
        · exact absurd h2 (by decide)

theorem ITag_tail : ∀ {x : Char} {l : Txt}, ITag (x :: l) → ITag l := fun h => h.2

theorem ITag_suffix : ∀ (l s : Txt), ITag l → s <:+ l → ITag s := by
  intro l
  induction l with
  | nil =>
    intro s _ hs
    rw [List.suffix_nil.mp hs]
    exact trivial
  | cons x l' ih =>
    intro s hI hs
    rcases List.suffix_cons_iff.mp hs with rfl | hs'
    · exact hI
    · exact ih s hI.2 hs'

theorem ITag_prefix : ∀ (l p : Txt), ITag l → p <+: l → ITag p := by
  intro l
  induction l with
  | nil =>
    intro p _ hp
    rw [List.prefix_nil.mp hp]
    exact trivial
  | cons x l' ih =>
    intro p hI hp
    cases p with
    | nil => exact trivial
    | cons y p' =>
      obtain ⟨t, ht⟩ := hp
      injection ht with h1 h2
      subst h1
      have hp' : p' <+: l' := ⟨t, h2⟩
      obtain ⟨hc, hI'⟩ := hI
      refine ⟨fun hx => ?_, ih p' hI' hp'⟩
      rcases hc hx with h | h | h
      · subst h
        exact Or.inl (List.prefix_nil.mp hp')
      · cases p' with
        | nil => exact Or.inl rfl
        | cons z p'' =>
          obtain ⟨t2, ht2⟩ := hp'
          cases l' with
          | nil => cases ht2
          | cons w l'' =>
            injection ht2 with h3 _
            rw [List.head?_cons] at h
            obtain rfl : w = '>' := Option.some.inj h
            subst h3
            exact Or.inr (Or.inl List.head?_cons)
      · exact Or.inr (Or.inr fun hgt => h (hp'.subset hgt))

theorem TagFree_of_ITag : ∀ s : Txt, ITag s → TagFree s := by
  have main : ∀ (a s : Txt), ITag s →
      ∀ m b, s = a ++ '<' :: (m ++ '>' :: b) → m ≠ [] → '>' ∉ m → False := by
    intro a
    induction a with
    | nil =>
      intro s hI m b heq hm hgt
      subst heq
      obtain ⟨hc, -⟩ := hI
      rcases hc rfl with h | h | h
      · exact absurd h (by simp)
      · cases m with
        | nil => exact hm rfl
        | cons m0 m' =>
          simp only [List.cons_append, List.head?_cons, Option.some.injEq] at h
          exact hgt (h ▸ List.mem_cons_self _ _)
      · exact h (by simp)
    | cons x a' ih =>
      intro s hI m b heq hm hgt
      subst heq
      exact ih _ hI.2 m b rfl hm hgt
  exact fun s hI a m b heq hm hgt => main a s hI m b heq hm hgt

theorem pyStrip_eq_rdropWhile (s : Txt) :
    pyStrip s = List.rdropWhile pyWs (s.dropWhile pyWs) := rfl

theorem pyStrip_infixOf (s : Txt) : pyStrip s <:+: s := by
  rw [pyStrip_eq_rdropWhile]
  exact (List.rdropWhile_prefix pyWs _).isInfix.trans (List.dropWhile_suffix pyWs).isInfix

theorem ITag_pyStrip {s : Txt} (h : ITag s) : ITag (pyStrip s) := by
  rw [pyStrip_eq_rdropWhile]
  exact ITag_prefix _ _ (ITag_suffix _ _ h (List.dropWhile_suffix pyWs))
    (List.rdropWhile_prefix pyWs _)

theorem pyStrip_nil_all_ws {s : Txt} (h : pyStrip s = []) : ∀ c ∈ s, pyWs c = true := by
  rw [pyStrip_eq_rdropWhile] at h
  have h2 : ∀ c ∈ s.dropWhile pyWs, pyWs c := List.rdropWhile_eq_nil_iff.mp h
  intro c hc
  rw [← List.takeWhile_append_dropWhile (p := pyWs) (l := s)] at hc
  rcases List.mem_append.mp hc with hc | hc
  · exact List.mem_takeWhile_imp hc
  · exact h2 c hc

theorem stripTagsAux_no_lt : ∀ s : Txt, '<' ∉ s → stripTagsAux none s = s := by
  intro s
  induction s with
  | nil => intro _; rfl
  | cons x rest ih =>
    intro h
    have hx : x ≠ '<' := fun hc => h (hc ▸ List.mem_cons_self _ _)
    rw [stripTagsAux_none_cons, if_neg hx, ih fun hc => h (List.mem_cons_of_mem _ hc)]

theorem collapseWsAux_true_all_ws : ∀ s : Txt,
    (∀ c ∈ s, pyWs c = true) → collapseWsAux true s = [] := by
  intro s
  induction s with
  | nil => intro _; rfl
  | cons x rest ih =>
    intro h
    rw [collapseWsAux_cons, if_pos (h x (List.mem_cons_self _ _)), if_pos rfl]
    exact ih fun c hc => h c (List.mem_cons_of_mem _ hc)

theorem cleanContent_of_all_ws {s : Txt} (h : ∀ c ∈ s, pyWs c = true) :
    cleanContent s = [] := by
  have hlt : '<' ∉ s := fun hc => by
    have hw := h _ hc
    exact absurd hw (by decide)
  unfold cleanContent collapseWs stripTags
  rw [stripTagsAux_no_lt s hlt]
  cases s with
  | nil => rfl
  | cons x rest =>
    rw [collapseWsAux_cons, if_pos (h x (List.mem_cons_self _ _)), if_neg (by simp),
      collapseWsAux_true_all_ws rest fun c hc => h c (List.mem_cons_of_mem _ hc)]
    decide

theorem cleanContent_nil_of_strip_nil {s : Txt} (h : pyStrip s = []) :
    cleanContent s = [] :=
  cleanContent_of_all_ws (pyStrip_nil_all_ws h)

theorem loadEpub_cons (it : EpubItem) (rest : List EpubItem) :
    loadEpub (it :: rest)
      = if it.isDocument then
          (if pyStrip it.content ≠ [] then
            (if cleanContent it.content ≠ [] then
              cleanContent it.content :: loadEpub rest
             else loadEpub rest)
           else loadEpub rest)
        else loadEpub rest := rfl

theorem mem_loadEpub : ∀ (items : List EpubItem) (t : Txt), t ∈ loadEpub items →
    t ≠ [] ∧ ∃ raw, t = cleanContent raw := by
  intro items
  induction items with
  | nil => intro t ht; exact absurd ht (by simp [loadEpub])
  | cons it rest ih =>
    intro t ht
    rw [loadEpub_cons] at ht
    by_cases h1 : it.isDocument
    · rw [if_pos h1] at ht
      by_cases h2 : pyStrip it.content ≠ []
      · rw [if_pos h2] at ht
        by_cases h3 : cleanContent it.content ≠ []
        · rw [if_pos h3] at ht
          rcases List.mem_cons.mp ht with rfl | ht2
          · exact ⟨h3, it.content, rfl⟩
          · exact ih t ht2
        · rw [if_neg h3] at ht
          exact ih t ht
      · rw [if_neg h2] at ht
        exact ih t ht
    · rw [if_neg h1] at ht
      exact ih t ht

/-- Claim C9: the EPUB loader returns one normalized unit per internal
document component whose cleaned text is nonempty (its output is exactly the
filtered-and-cleaned document components, so empty or non-extractable
components are skipped rather than emitted as empty units), and every
returned text is nonempty, contains no surviving `<...>` markup-tag pattern,
has no two consecutive whitespace characters, and renders every remaining
whitespace character as a plain space. -/
theorem loadEpub_units (items : List EpubItem) :
    (∀ t ∈ loadEpub items, t ≠ [] ∧ TagFree t ∧ noAdjWs t ∧ wsIsSpace t)
    ∧ loadEpub items
        = (items.filter
            (fun it => it.isDocument && !(cleanContent it.content).isEmpty)).map
            (fun it => cleanContent it.content) := by
  constructor
  · intro t ht
    obtain ⟨hne, raw, rfl⟩ := mem_loadEpub items t ht
    refine ⟨hne, ?_, ?_, ?_⟩
    · exact TagFree_of_ITag _ (ITag_pyStrip
        (ITag_collapseWsAux _ false (ITag_stripTagsAux raw none (by intro b hb; cases hb))))
    · exact List.Chain'.infix (noAdjWs_collapseWsAux (stripTags raw) false)
        (pyStrip_infixOf _)
    · intro c hc hw
      exact wsIsSpace_collapseWsAux (stripTags raw) false c
        ((pyStrip_infixOf _).subset hc) hw
  · induction items with
    | nil => rfl
    | cons it rest ih =>
      rw [loadEpub_cons, List.filter_cons]
      by_cases h1 : it.isDocument
      · by_cases h3 : cleanContent it.content = []
        · have hpred : (it.isDocument && !(cleanContent it.content).isEmpty) = false := by
            rw [h3]
            simp
          rw [if_pos h1]
          by_cases h2 : pyStrip it.content ≠ []
          · rw [if_pos h2, if_neg (by simpa using h3), hpred, if_neg Bool.false_ne_true]
            exact ih
          · rw [if_neg h2, hpred, if_neg Bool.false_ne_true]
            exact ih
        · have h2 : pyStrip it.content ≠ [] := fun hs =>
            h3 (cleanContent_nil_of_strip_nil hs)
          have hpred : (it.isDocument && !(cleanContent it.content).isEmpty) = true := by
            simp [h1, h3]
          rw [if_pos h1, if_pos h2, if_pos h3, hpred, if_pos rfl, List.map_cons, ih]
      · have hpred : (it.isDocument && !(cleanContent it.content).isEmpty) = false := by
          simp [h1]
        rw [if_neg h1, hpred, if_neg Bool.false_ne_true]
        exact ih

end KB
